import Mathlib

/-!
# Iterative two-thread SAXPY (`saxpy.c`)

Shallow embedding of `saxpy_thread` and of the parallel section of `main`.

* C `int` values (`p`, `max_iters`, `n_threads`, `thread_id`, loop counters) are `Int`;
  `p / 2` is the truncating division of C, `Int.tdiv`.
* The accumulator index `it + thread_id * max_iters` of line 56 is modelled twice:
  `saxpy_thread_int32` evaluates it as the 32-bit `int` expression it is, with
  wrap-around (`acc_index`); `saxpy_thread` evaluates it in ℤ.  The two workers are the
  same function whenever `(thread_id + 1) * max_iters` fits in an `int`
  (`saxpy_thread_int32_eq`), which is the case in every run of `main`, where the
  accumulator has `max_iters * n_threads` entries and `thread_id < n_threads`.
* A `double *` is a map from element offsets to values, `Int → α`; a store through the
  pointer is `Function.update`.  The element type `α` is kept abstract in the definitions
  so that the frame and reduction-order statements do not depend on the arithmetic; the
  statements about sums are proved for exact arithmetic, `α = ℚ`.
* `for (int i = lo; i < hi; i++) body` is `for_range lo hi body`.
* The workers are run one after another, in thread-id order.
-/

namespace Saxpy

/-- The three arrays reachable from a `struct ThreadArgs`. -/
structure Mem (α : Type) where
  X : Int → α
  Y : Int → α
  Y_avgs : Int → α

/-- Runs `body lo`, `body (lo+1)`, ..., `body (lo+k-1)`, in this order, on the state. -/
def for_count {σ : Type} (lo : Int) (body : Int → σ → σ) : Nat → σ → σ
  | 0, s => s
  | k + 1, s => body (lo + (k : Int)) (for_count lo body k s)

/-- The C loop `for (int i = lo; i < hi; i++) body`. -/
def for_range {σ : Type} (lo hi : Int) (body : Int → σ → σ) (s : σ) : σ :=
  for_count lo body (hi - lo).toNat s

/-- Line 47: `int start_index = (thread_id == 0) ? 0 : p / 2;` -/
def start_index (p thread_id : Int) : Int :=
  if thread_id = 0 then 0 else Int.tdiv p 2

/-- Line 48: `int end_index = (thread_id == 0) ? p / 2 : p;` -/
def end_index (p thread_id : Int) : Int :=
  if thread_id = 0 then Int.tdiv p 2 else p

/-- The value a 32-bit `int` takes when the exact result of an operation is `x`:
`x` itself when it fits, and `x` reduced modulo `2^32` into `[-2^31, 2^31)` otherwise. -/
def wrap_int (x : Int) : Int :=
  (x + 2147483648) % 4294967296 - 2147483648

/-- Line 56, the index expression `it + thread_id * max_iters` in 32-bit `int`
arithmetic: the product first, then the sum. -/
def acc_index (max_iters thread_id it : Int) : Int :=
  wrap_int (it + wrap_int (thread_id * max_iters))

section Generic

variable {α : Type} [Add α] [Mul α]

/-- Lines 55-56, the body of the inner loop of `saxpy_thread`:
`Y[i] = Y[i] + a * X[i]; Y_avgs[it + thread_id * max_iters] += Y[i];` -/
def saxpy_body (a : α) (max_iters thread_id it i : Int) (m : Mem α) : Mem α :=
  let Y1 := Function.update m.Y i (m.Y i + a * m.X i)
  let k := it + thread_id * max_iters
  { X := m.X, Y := Y1, Y_avgs := Function.update m.Y_avgs k (m.Y_avgs k + Y1 i) }

/-- Lines 36-61, `saxpy_thread`: the two nested loops over the range of the thread. -/
def saxpy_thread (a : α) (p max_iters thread_id : Int) (m : Mem α) : Mem α :=
  for_range 0 max_iters
    (fun it m1 =>
      for_range (start_index p thread_id) (end_index p thread_id)
        (fun i m2 => saxpy_body a max_iters thread_id it i m2) m1)
    m

/-- Lines 55-56 with the accumulator index in 32-bit `int` arithmetic:
`Y[i] = Y[i] + a * X[i]; Y_avgs[it + thread_id * max_iters] += Y[i];` -/
def saxpy_body_int32 (a : α) (max_iters thread_id it i : Int) (m : Mem α) : Mem α :=
  let Y1 := Function.update m.Y i (m.Y i + a * m.X i)
  let k := acc_index max_iters thread_id it
  { X := m.X, Y := Y1, Y_avgs := Function.update m.Y_avgs k (m.Y_avgs k + Y1 i) }

/-- Lines 36-61, `saxpy_thread`, with the accumulator index in 32-bit `int` arithmetic. -/
def saxpy_thread_int32 (a : α) (p max_iters thread_id : Int) (m : Mem α) : Mem α :=
  for_range 0 max_iters
    (fun it m1 =>
      for_range (start_index p thread_id) (end_index p thread_id)
        (fun i m2 => saxpy_body_int32 a max_iters thread_id it i m2) m1)
    m

/-- Lines 152-168 of `main`: one worker per `t = 0 .. n_threads-1`, all on the same
arrays, run one after another in thread-id order. -/
def run_workers (a : α) (p n_threads max_iters : Int) (m : Mem α) : Mem α :=
  for_range 0 n_threads (fun t m1 => saxpy_thread a p max_iters t m1) m

variable [Div α] [IntCast α]

/-- Lines 172-177 of `main`, the body of the reduction loop for one `it`:
`for (t = 1; t < n_threads; t++) Y_avgs[it] += Y_avgs[it + t * max_iters];`
followed by `Y_avgs[it] /= p;`. -/
def reduce_body (p n_threads max_iters it : Int) (B : Int → α) : Int → α :=
  let B1 := for_range 1 n_threads
    (fun t B2 => Function.update B2 it (B2 it + B2 (it + t * max_iters))) B
  Function.update B1 it (B1 it / ((p : Int) : α))

/-- Lines 171-178 of `main`: the reduction loop over `it = 0 .. max_iters-1`. -/
def reduce (p n_threads max_iters : Int) (B : Int → α) : Int → α :=
  for_range 0 max_iters (fun it B1 => reduce_body p n_threads max_iters it B1) B

variable [Zero α]

/-- Lines 117 and 147-178 of `main`: the accumulator is zeroed (`calloc`), the workers
run, and the reduction is applied to `Y_avgs` in place.  `X`, `Y` and `a` are the values
produced by the initialisation loop; the allocations are taken to have succeeded.  The
reporting that follows (lines 180-199) is not part of the model. -/
def main_core (X Y : Int → α) (a : α) (p n_threads max_iters : Int) : Mem α :=
  let m1 := run_workers a p n_threads max_iters { X := X, Y := Y, Y_avgs := fun _ => 0 }
  { X := m1.X, Y := m1.Y, Y_avgs := reduce p n_threads max_iters m1.Y_avgs }

end Generic

/-- The arrays of the worked example: `X = [1,1,1,1]`, `Y = [0,0,0,0]` and a zeroed
accumulator of size 2. -/
def example_mem : Mem ℚ :=
  { X := fun i => if 0 ≤ i ∧ i < 4 then 1 else 0, Y := fun _ => 0, Y_avgs := fun _ => 0 }

/-- The sum `B[it + 0*max_iters] + B[it + 1*max_iters] + ... + B[it + k*max_iters]`,
the terms being added left to right. -/
def column_sum {α : Type} [Add α] (B : Int → α) (max_iters it : Int) : Nat → α
  | 0 => B (it + 0 * max_iters)
  | k + 1 => column_sum B max_iters it k + B (it + ((k : Int) + 1) * max_iters)

/-- The value of `Y[i]` after `k` updates `Y[i] <- Y[i] + a * X[i]` of a sequential,
single-threaded SAXPY started from `Y`. -/
def seq_saxpy {α : Type} [Add α] [Mul α] (X Y : Int → α) (a : α) : Nat → Int → α
  | 0, i => Y i
  | k + 1, i => seq_saxpy X Y a k i + a * X i

/-- The first `n` elements of an array, as a list. -/
def toList {α : Type} (f : Int → α) : Nat → List α
  | 0 => []
  | n + 1 => toList f n ++ [f (n : Int)]

/-- The array holding the elements of `l`, and `d` at every other offset. -/
def ofList {α : Type} (l : List α) (d : α) : Int → α :=
  fun i => if 0 ≤ i then l.getD i.toNat d else d

/-! ## Loops -/

theorem for_count_succ {σ : Type} (lo : Int) (body : Int → σ → σ) (k : Nat) (s : σ) :
    for_count lo body (k + 1) s = body (lo + (k : Int)) (for_count lo body k s) := rfl

theorem sum_Ico_offset (f : Int → ℚ) (s : Int) (k : Nat) :
    ∑ j in Finset.Ico s (s + (k : Int)), f j = ∑ j in Finset.range k, f (s + (j : Int)) := by
  induction k with
  | zero => simp
  | succ k ih =>
    have hins : Finset.Ico s (s + ((k + 1 : Nat) : Int))
        = insert (s + (k : Int)) (Finset.Ico s (s + (k : Int))) := by
      ext x
      simp only [Finset.mem_Ico, Finset.mem_insert]
      omega
    rw [hins, Finset.sum_insert (by simp), Finset.sum_range_succ, ih, add_comm]

theorem sum_Ico_toNat (f : Int → ℚ) (s e : Int) :
    ∑ j in Finset.range (e - s).toNat, f (s + (j : Int)) = ∑ j in Finset.Ico s e, f j := by
  rw [← sum_Ico_offset]
  rcases le_or_lt s e with h | h
  · rw [Int.toNat_of_nonneg (by omega)]
    congr 2
    omega
  · have h0 : (e - s).toNat = 0 := by omega
    have h1 : Finset.Ico s e = ∅ := Finset.Ico_eq_empty (by omega)
    simp [h0, h1]

/-! ## The inner loop of `saxpy_thread` -/

section InnerLoop

variable {α : Type} [Add α] [Mul α]

theorem saxpy_body_X (a : α) (mi t it i : Int) (m : Mem α) :
    (saxpy_body a mi t it i m).X = m.X := rfl

theorem saxpy_body_Y (a : α) (mi t it i : Int) (m : Mem α) :
    (saxpy_body a mi t it i m).Y = Function.update m.Y i (m.Y i + a * m.X i) := rfl

theorem saxpy_body_Y_avgs (a : α) (mi t it i : Int) (m : Mem α) :
    (saxpy_body a mi t it i m).Y_avgs
      = Function.update m.Y_avgs (it + t * mi)
          (m.Y_avgs (it + t * mi) + (m.Y i + a * m.X i)) := by
  simp [saxpy_body]

theorem inner_X (a : α) (mi t it s : Int) (k : Nat) (m : Mem α) :
    (for_count s (fun i m2 => saxpy_body a mi t it i m2) k m).X = m.X := by
  induction k with
  | zero => rfl
  | succ k ih => rw [for_count_succ]; exact ih

theorem inner_Y_frame (a : α) (mi t it s : Int) (k : Nat) (m : Mem α) (j : Int)
    (hj : j < s ∨ s + (k : Int) ≤ j) :
    (for_count s (fun i m2 => saxpy_body a mi t it i m2) k m).Y j = m.Y j := by
  induction k with
  | zero => rfl
  | succ k ih =>
    rw [for_count_succ]
    have hne : j ≠ s + (k : Int) := by omega
    rw [saxpy_body_Y, Function.update_noteq hne]
    exact ih (by omega)

theorem inner_Y_val (a : α) (mi t it s : Int) (k : Nat) (m : Mem α) (j : Int)
    (h1 : s ≤ j) (h2 : j < s + (k : Int)) :
    (for_count s (fun i m2 => saxpy_body a mi t it i m2) k m).Y j = m.Y j + a * m.X j := by
  induction k with
  | zero => omega
  | succ k ih =>
    rw [for_count_succ, saxpy_body_Y]
    by_cases hjk : j = s + (k : Int)
    · subst hjk
      rw [Function.update_same, inner_X, inner_Y_frame _ _ _ _ _ _ _ _ (Or.inr le_rfl)]
    · rw [Function.update_noteq hjk]
      exact ih (by omega)

theorem inner_avgs_frame (a : α) (mi t it s : Int) (k : Nat) (m : Mem α) (j : Int)
    (hj : j ≠ it + t * mi) :
    (for_count s (fun i m2 => saxpy_body a mi t it i m2) k m).Y_avgs j = m.Y_avgs j := by
  induction k with
  | zero => rfl
  | succ k ih =>
    rw [for_count_succ, saxpy_body_Y_avgs, Function.update_noteq hj]
    exact ih

end InnerLoop

theorem inner_avgs_val (a : ℚ) (mi t it s : Int) (k : Nat) (m : Mem ℚ) :
    (for_count s (fun i m2 => saxpy_body a mi t it i m2) k m).Y_avgs (it + t * mi)
      = m.Y_avgs (it + t * mi)
        + ∑ j in Finset.range k, (m.Y (s + (j : Int)) + a * m.X (s + (j : Int))) := by
  induction k with
  | zero => simp [for_count]
  | succ k ih =>
    rw [for_count_succ, saxpy_body_Y_avgs, Function.update_same, ih, inner_X,
      inner_Y_frame _ _ _ _ _ _ _ _ (Or.inr le_rfl), Finset.sum_range_succ]
    ring

/-! ## One `for_range` pass of the inner loop -/

section InnerRange

variable {α : Type} [Add α] [Mul α]

theorem range_X (a : α) (mi t it s e : Int) (m : Mem α) :
    (for_range s e (fun i m2 => saxpy_body a mi t it i m2) m).X = m.X :=
  inner_X a mi t it s _ m

theorem range_Y_frame (a : α) (mi t it s e : Int) (m : Mem α) (j : Int)
    (hj : j < s ∨ e ≤ j) :
    (for_range s e (fun i m2 => saxpy_body a mi t it i m2) m).Y j = m.Y j :=
  inner_Y_frame a mi t it s _ m j (by omega)

theorem range_Y_val (a : α) (mi t it s e : Int) (m : Mem α) (j : Int)
    (h1 : s ≤ j) (h2 : j < e) :
    (for_range s e (fun i m2 => saxpy_body a mi t it i m2) m).Y j = m.Y j + a * m.X j :=
  inner_Y_val a mi t it s _ m j h1 (by omega)

theorem range_avgs_frame (a : α) (mi t it s e : Int) (m : Mem α) (j : Int)
    (hj : j ≠ it + t * mi) :
    (for_range s e (fun i m2 => saxpy_body a mi t it i m2) m).Y_avgs j = m.Y_avgs j :=
  inner_avgs_frame a mi t it s _ m j hj

end InnerRange

theorem range_avgs_val (a : ℚ) (mi t it s e : Int) (m : Mem ℚ) :
    (for_range s e (fun i m2 => saxpy_body a mi t it i m2) m).Y_avgs (it + t * mi)
      = m.Y_avgs (it + t * mi) + ∑ j in Finset.Ico s e, (m.Y j + a * m.X j) := by
  rw [← sum_Ico_toNat]
  exact inner_avgs_val a mi t it s _ m

/-! ## The outer loop of `saxpy_thread` -/

section OuterLoop

variable {α : Type} [Add α] [Mul α]

theorem outer_X (a : α) (mi t s e : Int) (n : Nat) (m : Mem α) :
    (for_count 0 (fun it m1 => for_range s e (fun i m2 => saxpy_body a mi t it i m2) m1)
      n m).X = m.X := by
  induction n with
  | zero => rfl
  | succ n ih => rw [for_count_succ, range_X]; exact ih

theorem outer_Y_frame (a : α) (mi t s e : Int) (n : Nat) (m : Mem α) (j : Int)
    (hj : j < s ∨ e ≤ j) :
    (for_count 0 (fun it m1 => for_range s e (fun i m2 => saxpy_body a mi t it i m2) m1)
      n m).Y j = m.Y j := by
  induction n with
  | zero => rfl
  | succ n ih => rw [for_count_succ, range_Y_frame _ _ _ _ _ _ _ _ hj]; exact ih

theorem outer_avgs_frame (a : α) (mi t s e : Int) (n : Nat) (m : Mem α) (j : Int)
    (hj : ∀ it : Int, 0 ≤ it → it < (n : Int) → j ≠ it + t * mi) :
    (for_count 0 (fun it m1 => for_range s e (fun i m2 => saxpy_body a mi t it i m2) m1)
      n m).Y_avgs j = m.Y_avgs j := by
  induction n with
  | zero => rfl
  | succ n ih =>
    rw [for_count_succ, range_avgs_frame _ _ _ _ _ _ _ _ (hj _ (by omega) (by omega))]
    exact ih (fun it h0 h1 => hj it h0 (by omega))

end OuterLoop

theorem outer_Y_val (a : ℚ) (mi t s e : Int) (n : Nat) (m : Mem ℚ) (j : Int)
    (h1 : s ≤ j) (h2 : j < e) :
    (for_count 0 (fun it m1 => for_range s e (fun i m2 => saxpy_body a mi t it i m2) m1)
      n m).Y j = m.Y j + (n : ℚ) * (a * m.X j) := by
  induction n with
  | zero => simp [for_count]
  | succ n ih =>
    rw [for_count_succ, range_Y_val _ _ _ _ _ _ _ _ h1 h2, outer_X, ih]
    push_cast
    ring

theorem outer_avgs_val (a : ℚ) (mi t s e : Int) (n : Nat) (m : Mem ℚ) (it : Int)
    (h0 : 0 ≤ it) (h1 : it < (n : Int)) :
    (for_count 0 (fun it m1 => for_range s e (fun i m2 => saxpy_body a mi t it i m2) m1)
      n m).Y_avgs (it + t * mi)
      = m.Y_avgs (it + t * mi)
        + ∑ j in Finset.Ico s e, (m.Y j + ((it : ℚ) + 1) * (a * m.X j)) := by
  induction n with
  | zero => omega
  | succ n ih =>
    rw [for_count_succ]
    by_cases hit : it = (n : Int)
    · subst hit
      rw [zero_add, range_avgs_val, outer_avgs_frame _ _ _ _ _ _ _ _ (by intro i _ hi; omega)]
      congr 1
      apply Finset.sum_congr rfl
      intro j hj
      rw [Finset.mem_Ico] at hj
      rw [outer_Y_val _ _ _ _ _ _ _ _ hj.1 hj.2, outer_X]
      push_cast
      ring
    · rw [range_avgs_frame _ _ _ _ _ _ _ _ (by omega)]
      exact ih (by omega)

/-! ## Index ranges -/

theorem tdiv_two (p : Int) (hp : 0 ≤ p) : Int.tdiv p 2 = p / 2 :=
  Int.tdiv_eq_ediv hp (by decide)

theorem floor_half (p : Int) : ⌊(p : ℚ) / 2⌋ = p / 2 := by
  have h := Rat.floor_intCast_div_natCast p 2
  simpa using h

/-- C7: for two threads and `p > 0`, thread 0 gets `[0, floor(p/2))` and thread 1 gets
`[floor(p/2), p)`; the first range has `floor(p/2)` elements and the last one has
`p - floor(p/2)`, which is `floor(p/2)` plus the remainder `p mod 2`; for `p = 5` the
ranges are `[0,2)` and `[2,5)`. -/
theorem two_way_split (p : Int) (hp : 0 < p) :
    start_index p 0 = 0 ∧ end_index p 0 = ⌊(p : ℚ) / 2⌋ ∧
    start_index p 1 = ⌊(p : ℚ) / 2⌋ ∧ end_index p 1 = p ∧
    end_index p 0 - start_index p 0 = ⌊(p : ℚ) / 2⌋ ∧
    end_index p 1 - start_index p 1 = p - ⌊(p : ℚ) / 2⌋ ∧
    end_index p 1 - start_index p 1 = ⌊(p : ℚ) / 2⌋ + p % 2 ∧
    (start_index 5 0 = 0 ∧ end_index 5 0 = 2 ∧ start_index 5 1 = 2 ∧ end_index 5 1 = 5) := by
  have h := tdiv_two p hp.le
  rw [floor_half]
  simp only [start_index, end_index, h]
  refine ⟨by simp, by simp, by simp, by simp, by simp, by simp, ?_, by decide⟩
  simp only [one_ne_zero, if_false]
  omega

theorem two_way_split_witness :
    (0 : Int) < 7 ∧ start_index 7 0 = 0 ∧ end_index 7 0 = ⌊((7 : Int) : ℚ) / 2⌋ ∧
    start_index 7 1 = ⌊((7 : Int) : ℚ) / 2⌋ ∧ end_index 7 1 = 7 :=
  ⟨by decide, (two_way_split 7 (by decide)).1, (two_way_split 7 (by decide)).2.1,
    (two_way_split 7 (by decide)).2.2.1, (two_way_split 7 (by decide)).2.2.2.1⟩

/-- C1, as stated, fails: with `p = 2` and a single thread the only range is `[0, 1)`,
not `[0, 2)`, and index 1 belongs to no thread; with three threads index 1 belongs
to both thread 1 and thread 2. -/
theorem partition_not_complete :
    (start_index 2 0 = 0 ∧ end_index 2 0 = 1) ∧
    (¬ ∃ t : Int, 0 ≤ t ∧ t < 1 ∧ start_index 2 t ≤ 1 ∧ 1 < end_index 2 t) ∧
    (¬ ∃! t : Int, 0 ≤ t ∧ t < 3 ∧ start_index 2 t ≤ 1 ∧ 1 < end_index 2 t) := by
  refine ⟨by decide, ?_, ?_⟩
  · rintro ⟨t, h0, h1, -, h3⟩
    have ht : t = 0 := by omega
    subst ht
    revert h3
    decide
  · rintro ⟨t, -, hu⟩
    have e1 : (1 : Int) = t := hu 1 (by decide)
    have e2 : (2 : Int) = t := hu 2 (by decide)
    omega

/-- C1, amended: for two threads and every `p > 0`, each index of `[0, p)` lies in the
range of exactly one of the threads 0 and 1. -/
theorem partition_complete_two_threads (p : Int) (hp : 0 < p) (i : Int)
    (h0 : 0 ≤ i) (h1 : i < p) :
    ∃! t : Int, (0 ≤ t ∧ t < 2) ∧ start_index p t ≤ i ∧ i < end_index p t := by
  have h := tdiv_two p hp.le
  by_cases hi : i < p / 2
  · refine ⟨0, ⟨⟨by decide, by decide⟩, ?_, ?_⟩, ?_⟩
    · simp [start_index, h0]
    · simp [end_index, h, hi]
    · rintro t ⟨⟨ht0, ht2⟩, hs, -⟩
      by_contra hne
      have ht : t = 1 := by omega
      subst ht
      simp only [start_index, one_ne_zero, if_false, h] at hs
      omega
  · refine ⟨1, ⟨⟨by decide, by decide⟩, ?_, ?_⟩, ?_⟩
    · simp only [start_index, one_ne_zero, if_false, h]
      omega
    · simp [end_index, h1]
    · rintro t ⟨⟨ht0, ht2⟩, -, he⟩
      by_contra hne
      have ht : t = 0 := by omega
      subst ht
      simp only [end_index, if_true, h] at he
      omega

theorem partition_complete_two_threads_witness :
    ∃! t : Int, (0 ≤ t ∧ t < 2) ∧ start_index 5 t ≤ 2 ∧ 2 < end_index 5 t :=
  partition_complete_two_threads 5 (by decide) 2 (by decide) (by decide)

/-! ## The worker -/

theorem wrap_int_of_fits (x : Int) (h0 : -2147483648 ≤ x) (h1 : x ≤ 2147483647) :
    wrap_int x = x := by
  unfold wrap_int
  omega

theorem acc_index_of_fits (mi t it : Int) (ht : 0 ≤ t) (h0 : 0 ≤ it) (h1 : it < mi)
    (hfit : (t + 1) * mi ≤ 2147483647) : acc_index mi t it = it + t * mi := by
  have e : (t + 1) * mi = t * mi + mi := by ring
  have hpos : 0 ≤ t * mi := mul_nonneg ht (by omega)
  rw [e] at hfit
  unfold acc_index
  rw [wrap_int_of_fits (t * mi) (by omega) (by omega),
    wrap_int_of_fits (it + t * mi) (by omega) (by omega)]

theorem for_count_congr {σ : Type} (lo : Int) (f g : Int → σ → σ) (k : Nat) (s : σ)
    (h : ∀ j : Nat, j < k → ∀ x : σ, f (lo + (j : Int)) x = g (lo + (j : Int)) x) :
    for_count lo f k s = for_count lo g k s := by
  induction k with
  | zero => rfl
  | succ k ih =>
    rw [for_count_succ, for_count_succ, ih (fun j hj x => h j (Nat.lt_succ_of_lt hj) x),
      h k (Nat.lt_succ_self k)]

section WorkerInt32

variable {α : Type} [Add α] [Mul α]

theorem saxpy_body_int32_X (a : α) (mi t it i : Int) (m : Mem α) :
    (saxpy_body_int32 a mi t it i m).X = m.X := rfl

theorem saxpy_body_int32_Y (a : α) (mi t it i : Int) (m : Mem α) :
    (saxpy_body_int32 a mi t it i m).Y = Function.update m.Y i (m.Y i + a * m.X i) := rfl

theorem saxpy_body_int32_Y_avgs (a : α) (mi t it i : Int) (m : Mem α) :
    (saxpy_body_int32 a mi t it i m).Y_avgs
      = Function.update m.Y_avgs (acc_index mi t it)
          (m.Y_avgs (acc_index mi t it) + (m.Y i + a * m.X i)) := by
  simp [saxpy_body_int32]

theorem inner_int32_X (a : α) (mi t it s : Int) (k : Nat) (m : Mem α) :
    (for_count s (fun i m2 => saxpy_body_int32 a mi t it i m2) k m).X = m.X := by
  induction k with
  | zero => rfl
  | succ k ih => rw [for_count_succ]; exact ih

theorem inner_int32_Y_frame (a : α) (mi t it s : Int) (k : Nat) (m : Mem α) (j : Int)
    (hj : j < s ∨ s + (k : Int) ≤ j) :
    (for_count s (fun i m2 => saxpy_body_int32 a mi t it i m2) k m).Y j = m.Y j := by
  induction k with
  | zero => rfl
  | succ k ih =>
    have hne : j ≠ s + (k : Int) := by omega
    rw [for_count_succ, saxpy_body_int32_Y, Function.update_noteq hne]
    exact ih (by omega)

theorem inner_int32_avgs_frame (a : α) (mi t it s : Int) (k : Nat) (m : Mem α) (j : Int)
    (hj : j ≠ acc_index mi t it) :
    (for_count s (fun i m2 => saxpy_body_int32 a mi t it i m2) k m).Y_avgs j
      = m.Y_avgs j := by
  induction k with
  | zero => rfl
  | succ k ih =>
    rw [for_count_succ, saxpy_body_int32_Y_avgs, Function.update_noteq hj]
    exact ih

theorem outer_int32_X (a : α) (mi t s e : Int) (n : Nat) (m : Mem α) :
    (for_count 0
      (fun it m1 => for_range s e (fun i m2 => saxpy_body_int32 a mi t it i m2) m1)
      n m).X = m.X := by
  induction n with
  | zero => rfl
  | succ n ih =>
    rw [for_count_succ]
    exact (inner_int32_X a mi t _ s _ _).trans ih

theorem outer_int32_Y_frame (a : α) (mi t s e : Int) (n : Nat) (m : Mem α) (j : Int)
    (hj : j < s ∨ e ≤ j) :
    (for_count 0
      (fun it m1 => for_range s e (fun i m2 => saxpy_body_int32 a mi t it i m2) m1)
      n m).Y j = m.Y j := by
  induction n with
  | zero => rfl
  | succ n ih =>
    rw [for_count_succ]
    exact (inner_int32_Y_frame a mi t _ s _ _ j (by omega)).trans ih

theorem outer_int32_avgs_frame (a : α) (mi t s e : Int) (n : Nat) (m : Mem α) (j : Int)
    (hj : ∀ it : Int, 0 ≤ it → it < (n : Int) → j ≠ acc_index mi t it) :
    (for_count 0
      (fun it m1 => for_range s e (fun i m2 => saxpy_body_int32 a mi t it i m2) m1)
      n m).Y_avgs j = m.Y_avgs j := by
  induction n with
  | zero => rfl
  | succ n ih =>
    rw [for_count_succ]
    exact (inner_int32_avgs_frame a mi t _ s _ _ j (hj _ (by omega) (by omega))).trans
      (ih (fun it h0 h1 => hj it h0 (by omega)))

theorem saxpy_body_int32_eq (a : α) (mi t it i : Int) (m : Mem α) (ht : 0 ≤ t)
    (h0 : 0 ≤ it) (h1 : it < mi) (hfit : (t + 1) * mi ≤ 2147483647) :
    saxpy_body_int32 a mi t it i m = saxpy_body a mi t it i m := by
  unfold saxpy_body_int32 saxpy_body
  rw [acc_index_of_fits mi t it ht h0 h1 hfit]

theorem saxpy_thread_int32_eq (a : α) (p mi t : Int) (m : Mem α) (ht : 0 ≤ t)
    (hfit : (t + 1) * mi ≤ 2147483647) :
    saxpy_thread_int32 a p mi t m = saxpy_thread a p mi t m := by
  unfold saxpy_thread_int32 saxpy_thread for_range
  apply for_count_congr
  intro it hit x
  apply for_count_congr
  intro i _ y
  exact saxpy_body_int32_eq a mi t _ _ y ht (by omega) (by omega) hfit

end WorkerInt32

/-- C6, as stated, fails: with `p = 2`, `max_iters = 4` and `thread_id = 2^30` the `int`
product `thread_id * max_iters` wraps to `0`, so the worker (range `[1, 2)`, `a = 1`,
`X = [1,1]`, `Y = [0,0]`, zeroed accumulator) adds `Y[1] = 1, 2, 3, 4` into
`Y_avgs[0..3]`, which lie outside the column `[2^32, 2^32 + 4)`. -/
theorem frame_fails_on_overflow :
    ((0 : Int) < 2 ∧ (0 : Int) < 4 ∧ (0 : Int) ≤ 1073741824) ∧
    (3 : Int) < 1073741824 * 4 ∧
    toList (saxpy_thread_int32 (1 : ℚ) 2 4 1073741824
      ⟨fun _ => 1, fun _ => 0, fun _ => 0⟩).Y_avgs 4 = [1, 2, 3, 4] := by
  refine ⟨by decide, by decide, ?_⟩
  simp [toList, saxpy_thread_int32, saxpy_body_int32, acc_index, wrap_int, for_range,
    for_count, start_index, end_index, Function.update, Int.tdiv]
  norm_num

/-- C6, amended: one run of `saxpy_thread` (accumulator index in 32-bit arithmetic)
leaves `X` unchanged, leaves `Y[i]` unchanged for every `i` outside
`[start_index, end_index)`, and, when `(t+1) * max_iters <= 2147483647` so that the index
`it + thread_id * max_iters` does not overflow, leaves `Y_avgs[j]` unchanged for every
`j` outside the column `[t * max_iters, (t+1) * max_iters)` of the thread.  (The scalar
`a` is passed by value.)  Holds for any arithmetic on the elements. -/
theorem saxpy_thread_frame {α : Type} [Add α] [Mul α] (a : α) (p max_iters t : Int)
    (m : Mem α) (_hp : 0 < p) (hm : 0 < max_iters) (ht : 0 ≤ t) :
    (saxpy_thread_int32 a p max_iters t m).X = m.X ∧
    (∀ i : Int, i < start_index p t ∨ end_index p t ≤ i →
      (saxpy_thread_int32 a p max_iters t m).Y i = m.Y i) ∧
    ((t + 1) * max_iters ≤ 2147483647 →
      ∀ j : Int, j < t * max_iters ∨ (t + 1) * max_iters ≤ j →
        (saxpy_thread_int32 a p max_iters t m).Y_avgs j = m.Y_avgs j) := by
  refine ⟨outer_int32_X a max_iters t _ _ _ m, ?_, ?_⟩
  · intro i hi
    exact outer_int32_Y_frame a max_iters t _ _ _ m i hi
  · intro hfit j hj
    apply outer_int32_avgs_frame a max_iters t _ _ _ m j
    intro it h0 h1 hjit
    rw [acc_index_of_fits max_iters t it ht h0 (by omega) hfit] at hjit
    have e : (t + 1) * max_iters = t * max_iters + max_iters := by ring
    rw [e] at hj
    omega

theorem saxpy_thread_frame_witness :
    (saxpy_thread_int32 (2 : ℚ) 4 1 1 ⟨fun _ => 1, fun _ => 0, fun _ => 0⟩).X 0 = 1 ∧
    (saxpy_thread_int32 (2 : ℚ) 4 1 1 ⟨fun _ => 1, fun _ => 0, fun _ => 0⟩).Y 1 = 0 ∧
    (saxpy_thread_int32 (2 : ℚ) 4 1 1 ⟨fun _ => 1, fun _ => 0, fun _ => 0⟩).Y_avgs 0 = 0 :=
  have h := saxpy_thread_frame (2 : ℚ) 4 1 1 ⟨fun _ => 1, fun _ => 0, fun _ => 0⟩
    (by decide) (by decide) (by decide)
  ⟨congrFun h.1 0, h.2.1 1 (by decide), h.2.2 (by decide) 0 (by decide)⟩

section AddLoop

variable {α : Type} [Add α]

theorem column_sum_congr (B C : Int → α) (mi it : Int) (k : Nat)
    (h : ∀ t : Nat, t ≤ k → B (it + (t : Int) * mi) = C (it + (t : Int) * mi)) :
    column_sum B mi it k = column_sum C mi it k := by
  induction k with
  | zero => simpa [column_sum] using h 0 le_rfl
  | succ k ih =>
    have hk := h (k + 1) le_rfl
    push_cast at hk
    simp only [column_sum]
    rw [ih (fun t ht => h t (Nat.le_succ_of_le ht)), hk]

theorem add_loop_frame (mi it : Int) (k : Nat) (B : Int → α) (j : Int) (hj : j ≠ it) :
    for_count 1 (fun t B2 => Function.update B2 it (B2 it + B2 (it + t * mi))) k B j
      = B j := by
  induction k with
  | zero => rfl
  | succ k ih => rw [for_count_succ, Function.update_noteq hj]; exact ih

theorem add_loop_val (mi it : Int) (k : Nat) (B : Int → α) (hmi : 0 < mi) :
    for_count 1 (fun t B2 => Function.update B2 it (B2 it + B2 (it + t * mi))) k B it
      = column_sum B mi it k := by
  induction k with
  | zero => simp [for_count, column_sum]
  | succ k ih =>
    have hpos : 0 < (1 + (k : Int)) * mi := mul_pos (by positivity) hmi
    rw [for_count_succ, Function.update_same, ih,
      add_loop_frame mi it k B _ (by omega)]
    simp only [column_sum]
    rw [add_comm (k : Int) 1]

end AddLoop

section Reduction

variable {α : Type} [Add α] [Div α] [IntCast α]

theorem reduce_body_eq (p n mi it : Int) (B : Int → α) :
    reduce_body p n mi it B
      = Function.update
          (for_count 1 (fun t B2 => Function.update B2 it (B2 it + B2 (it + t * mi)))
            (n - 1).toNat B) it
          (for_count 1 (fun t B2 => Function.update B2 it (B2 it + B2 (it + t * mi)))
            (n - 1).toNat B it / ((p : Int) : α)) := rfl

theorem reduce_body_frame (p n mi it : Int) (B : Int → α) (j : Int) (hj : j ≠ it) :
    reduce_body p n mi it B j = B j := by
  rw [reduce_body_eq, Function.update_noteq hj]
  exact add_loop_frame mi it _ B j hj

theorem reduce_body_val (p n mi it : Int) (B : Int → α) (hmi : 0 < mi) :
    reduce_body p n mi it B it = column_sum B mi it (n - 1).toNat / ((p : Int) : α) := by
  rw [reduce_body_eq, Function.update_same]
  exact congrArg (fun x => x / ((p : Int) : α)) (add_loop_val mi it _ B hmi)

theorem reduce_count_frame (p n mi : Int) (k : Nat) (B : Int → α) (j : Int)
    (hj : j < 0 ∨ (k : Int) ≤ j) :
    for_count 0 (fun it B1 => reduce_body p n mi it B1) k B j = B j := by
  induction k with
  | zero => rfl
  | succ k ih =>
    rw [for_count_succ, reduce_body_frame _ _ _ _ _ _ (by omega)]
    exact ih (by omega)

theorem reduce_count_val (p n mi : Int) (k : Nat) (B : Int → α) (it : Int)
    (h0 : 0 ≤ it) (h1 : it < (k : Int)) (hk : (k : Int) ≤ mi) :
    for_count 0 (fun it B1 => reduce_body p n mi it B1) k B it
      = column_sum B mi it (n - 1).toNat / ((p : Int) : α) := by
  induction k with
  | zero => omega
  | succ k ih =>
    rw [for_count_succ, zero_add]
    by_cases hit : it = (k : Int)
    · subst hit
      rw [reduce_body_val _ _ _ _ _ (by omega)]
      congr 1
      apply column_sum_congr
      intro t _
      apply reduce_count_frame
      right
      have : 0 ≤ (t : Int) * mi := mul_nonneg (by positivity) (by omega)
      omega
    · rw [reduce_body_frame _ _ _ _ _ _ hit]
      exact ih (by omega) (by omega)

theorem reduce_frame (p n mi : Int) (B : Int → α) (j : Int) (hj : j < 0 ∨ mi ≤ j) :
    reduce p n mi B j = B j :=
  reduce_count_frame p n mi _ B j (by omega)

theorem reduce_val (p n mi : Int) (B : Int → α) (it : Int) (h0 : 0 ≤ it) (h1 : it < mi) :
    reduce p n mi B it = column_sum B mi it (n - 1).toNat / ((p : Int) : α) :=
  reduce_count_val p n mi _ B it h0 (by omega) (by omega)

end Reduction

/-- C5: after the reduction loop, for every `it` of `[0, max_iters)`, `Y_avgs[it]` is
`(B[it + 0*max_iters] + B[it + 1*max_iters] + ... + B[it + (n_threads-1)*max_iters]) / p`,
the terms added left to right in thread-id order, `B` being the buffer before the
reduction.  Holds for any arithmetic on the elements. -/
theorem reduce_correct {α : Type} [Add α] [Div α] [IntCast α] (p n_threads max_iters : Int)
    (B : Int → α) (_hp : 0 < p) (_hn : 0 < n_threads) (_hm : 0 < max_iters)
    (it : Int) (h0 : 0 ≤ it) (h1 : it < max_iters) :
    reduce p n_threads max_iters B it
      = column_sum B max_iters it (n_threads - 1).toNat / ((p : Int) : α) :=
  reduce_val p n_threads max_iters B it h0 h1

theorem reduce_correct_witness :
    reduce 4 3 2 (fun j => ((j : Int) : ℚ)) 1
      = column_sum (fun j => ((j : Int) : ℚ)) 2 1 ((3 : Int) - 1).toNat / (((4 : Int) : Int) : ℚ) :=
  reduce_correct 4 3 2 (fun j => ((j : Int) : ℚ)) (by decide) (by decide) (by decide) 1
    (by decide) (by decide)

/-- C4, as stated, fails: with `p = 4`, two threads, `max_iters = 1` and the buffer
`[4, 4]`, the first reduction overwrites entry 0 with `2` and gives the series `[2]`;
a second reduction gives `[3/2]`. -/
theorem reduce_not_idempotent :
    toList (reduce 4 2 1 (ofList [4, 4] (0 : ℚ))) 1 = [2] ∧
    toList (reduce 4 2 1 (reduce 4 2 1 (ofList [4, 4] (0 : ℚ)))) 1 = [3 / 2] ∧
    reduce 4 2 1 (ofList [4, 4] (0 : ℚ)) 0 ≠ ofList [4, 4] (0 : ℚ) 0 := by
  simp [toList, reduce, reduce_body, for_range, for_count, ofList, Function.update]
  norm_num

/-- C4, amended: the reduction writes only the first `max_iters` entries of the buffer
(the column of thread 0, where the series is left) and leaves every entry at an index
`>= max_iters` unchanged; a second run, with no worker in between, replaces entry `it`
by `(S[it] + B[it + 1*max_iters] + ... + B[it + (n_threads-1)*max_iters]) / p`, where `S`
is the series left by the first run. -/
theorem reduce_twice {α : Type} [Add α] [Div α] [IntCast α] (p n_threads max_iters : Int)
    (B : Int → α) (_hp : 0 < p) (_hn : 0 < n_threads) (hm : 0 < max_iters) :
    (∀ j : Int, max_iters ≤ j → reduce p n_threads max_iters B j = B j) ∧
    (∀ it : Int, 0 ≤ it → it < max_iters →
      reduce p n_threads max_iters (reduce p n_threads max_iters B) it
        = column_sum (Function.update B it (reduce p n_threads max_iters B it))
            max_iters it (n_threads - 1).toNat / ((p : Int) : α)) := by
  refine ⟨fun j hj => reduce_frame p n_threads max_iters B j (Or.inr hj), ?_⟩
  intro it h0 h1
  rw [reduce_val p n_threads max_iters _ it h0 h1]
  congr 1
  apply column_sum_congr
  intro t _
  rcases Nat.eq_zero_or_pos t with ht | ht
  · subst ht
    have e : it + ((0 : Nat) : Int) * max_iters = it := by simp
    rw [e, Function.update_same]
  · have hpos : 0 < (t : Int) * max_iters := mul_pos (by exact_mod_cast ht) hm
    have h1t : (1 : Int) ≤ (t : Int) := by exact_mod_cast ht
    have hge : max_iters ≤ (t : Int) * max_iters := by nlinarith
    rw [Function.update_noteq (by omega),
      reduce_frame p n_threads max_iters B _ (Or.inr (by omega))]

theorem reduce_twice_witness :
    reduce 4 2 1 (ofList [4, 4] (0 : ℚ)) 1 = ofList [4, 4] (0 : ℚ) 1 ∧
    reduce 4 2 1 (reduce 4 2 1 (ofList [4, 4] (0 : ℚ))) 0
      = column_sum (Function.update (ofList [4, 4] (0 : ℚ)) 0
          (reduce 4 2 1 (ofList [4, 4] (0 : ℚ)) 0)) 1 0 ((2 : Int) - 1).toNat
        / (((4 : Int) : Int) : ℚ) :=
  have h := reduce_twice 4 2 1 (ofList [4, 4] (0 : ℚ)) (by decide) (by decide) (by decide)
  ⟨h.1 1 (by decide), h.2 0 (by decide) (by decide)⟩

/-- C8: the worked example.  With `p = 4`, two threads, `max_iters = 1`, `a = 2`,
`X = [1,1,1,1]`, `Y = [0,0,0,0]` and a zeroed accumulator, the ranges are `[0,2)` and
`[2,4)`; after both workers `Y = [2,2,2,2]` and the accumulator is `[4, 4]`; after the
reduction the series is `[(4+4)/4] = [2]`. -/
theorem worked_example :
    (start_index 4 0 = 0 ∧ end_index 4 0 = 2 ∧ start_index 4 1 = 2 ∧ end_index 4 1 = 4) ∧
    toList example_mem.X 4 = [1, 1, 1, 1] ∧ toList example_mem.Y 4 = [0, 0, 0, 0] ∧
    toList example_mem.Y_avgs 2 = [0, 0] ∧
    toList (run_workers 2 4 2 1 example_mem).Y 4 = [2, 2, 2, 2] ∧
    toList (run_workers 2 4 2 1 example_mem).Y_avgs 2 = [4, 4] ∧
    toList (reduce 4 2 1 (run_workers 2 4 2 1 example_mem).Y_avgs) 1 = [(4 + 4) / 4] ∧
    toList (main_core example_mem.X example_mem.Y 2 4 2 1).Y_avgs 1 = [2] := by
  refine ⟨by decide, ?_, ?_, ?_, ?_, ?_, ?_, ?_⟩ <;>
    simp [toList, example_mem, main_core, run_workers, saxpy_thread, reduce, reduce_body,
      for_range, for_count, start_index, end_index, saxpy_body, Function.update, Int.tdiv] <;>
    norm_num

/-! ## The workers run one after another -/

section ThreadGeneric

variable {α : Type} [Add α] [Mul α]

theorem thread_X (a : α) (p mi t : Int) (m : Mem α) :
    (saxpy_thread a p mi t m).X = m.X :=
  outer_X a mi t _ _ _ m

theorem thread_Y_frame (a : α) (p mi t : Int) (m : Mem α) (j : Int)
    (hj : j < start_index p t ∨ end_index p t ≤ j) :
    (saxpy_thread a p mi t m).Y j = m.Y j :=
  outer_Y_frame a mi t _ _ _ m j hj

theorem thread_avgs_frame (a : α) (p mi t : Int) (m : Mem α) (j : Int)
    (hj : ∀ it : Int, 0 ≤ it → it < mi → j ≠ it + t * mi) :
    (saxpy_thread a p mi t m).Y_avgs j = m.Y_avgs j :=
  outer_avgs_frame a mi t _ _ _ m j (fun it h0 h1 => hj it h0 (by omega))

theorem workers_X (a : α) (p mi : Int) (k : Nat) (m : Mem α) :
    (for_count 0 (fun t m1 => saxpy_thread a p mi t m1) k m).X = m.X := by
  induction k with
  | zero => rfl
  | succ k ih => rw [for_count_succ, thread_X]; exact ih

end ThreadGeneric

theorem thread_Y_val (a : ℚ) (p mi t : Int) (m : Mem ℚ) (hm : 0 ≤ mi) (j : Int)
    (h1 : start_index p t ≤ j) (h2 : j < end_index p t) :
    (saxpy_thread a p mi t m).Y j = m.Y j + (mi : ℚ) * (a * m.X j) := by
  have hc : (((mi - 0).toNat : Nat) : ℚ) = (mi : ℚ) := by
    have h : (((mi - 0).toNat : Nat) : Int) = mi := by omega
    exact_mod_cast h
  have h := outer_Y_val a mi t _ _ (mi - 0).toNat m j h1 h2
  rw [hc] at h
  exact h

theorem thread_avgs_val (a : ℚ) (p mi t : Int) (m : Mem ℚ) (it : Int)
    (h0 : 0 ≤ it) (h1 : it < mi) :
    (saxpy_thread a p mi t m).Y_avgs (it + t * mi)
      = m.Y_avgs (it + t * mi)
        + ∑ j in Finset.Ico (start_index p t) (end_index p t),
            (m.Y j + ((it : ℚ) + 1) * (a * m.X j)) :=
  outer_avgs_val a mi t _ _ (mi - 0).toNat m it h0 (by omega)

theorem workers_Y_val (a : ℚ) (p mi : Int) (k : Nat) (m : Mem ℚ) (hp : 0 < p)
    (hm : 0 ≤ mi) (i : Int) (h0 : 0 ≤ i) (h1 : i < p) :
    (for_count 0 (fun t m1 => saxpy_thread a p mi t m1) (k + 1) m).Y i
      = m.Y i + (if i < p / 2 then 1 else (k : ℚ)) * ((mi : ℚ) * (a * m.X i)) := by
  have hd := tdiv_two p hp.le
  induction k with
  | zero =>
    rw [for_count_succ]
    simp only [for_count, Nat.cast_zero, add_zero]
    by_cases hi : i < p / 2
    · rw [thread_Y_val a p mi 0 m hm i (by simp [start_index, h0])
        (by simp [end_index, hd, hi]), if_pos hi, one_mul]
    · rw [thread_Y_frame a p mi 0 m i (Or.inr (by simp only [end_index, if_true, hd]; omega)),
        if_neg hi, zero_mul, add_zero]
  | succ k ih =>
    rw [for_count_succ]
    have hne : (0 : Int) + ((k + 1 : Nat) : Int) ≠ 0 := by omega
    by_cases hi : i < p / 2
    · rw [thread_Y_frame a p mi _ _ i (Or.inl (by simp only [start_index, if_neg hne, hd]; exact hi)),
        ih, if_pos hi, if_pos hi]
    · rw [thread_Y_val a p mi _ _ hm i (by simp only [start_index, if_neg hne, hd]; omega)
        (by simp only [end_index, if_neg hne]; exact h1), ih, workers_X, if_neg hi, if_neg hi]
      push_cast
      ring

theorem seq_saxpy_eq (X Y : Int → ℚ) (a : ℚ) (k : Nat) (i : Int) :
    seq_saxpy X Y a k i = Y i + (k : ℚ) * (a * X i) := by
  induction k with
  | zero => simp [seq_saxpy]
  | succ k ih =>
    simp only [seq_saxpy]
    rw [ih]
    push_cast
    ring

/-- C3, as stated, fails: with `p = 2`, `max_iters = 1`, `a = 1`, `X = [1,1]` and
`Y = [0,0]`, one thread leaves `Y = [1, 0]` while two threads leave `Y = [1, 1]`. -/
theorem thread_count_changes_Y :
    toList (run_workers (1 : ℚ) 2 1 1 ⟨fun _ => 1, fun _ => 0, fun _ => 0⟩).Y 2 = [1, 0] ∧
    toList (run_workers (1 : ℚ) 2 2 1 ⟨fun _ => 1, fun _ => 0, fun _ => 0⟩).Y 2 = [1, 1] := by
  constructor <;>
    simp [toList, run_workers, saxpy_thread, for_range, for_count, start_index, end_index,
      saxpy_body, Function.update, Int.tdiv]

/-- C3, amended: with `n_threads > 0` workers run one after another in exact arithmetic,
`Y[i]` ends as `Y0[i] + max_iters * a * X[i]` for `i` in `[0, floor(p/2))` and as
`Y0[i] + (n_threads - 1) * max_iters * a * X[i]` for `i` in `[floor(p/2), p)`; so the
final `Y` of any two thread counts agree on `[0, floor(p/2))`, and for two threads the
final `Y` is that of the sequential computation everywhere. -/
theorem final_Y_by_thread_count (a : ℚ) (p max_iters n1 n2 : Int) (m : Mem ℚ)
    (hp : 0 < p) (hm : 0 < max_iters) (hn1 : 0 < n1) (hn2 : 0 < n2) :
    (∀ i : Int, 0 ≤ i → i < p →
      (run_workers a p n1 max_iters m).Y i
        = m.Y i + (if i < p / 2 then 1 else (n1 : ℚ) - 1) * ((max_iters : ℚ) * a * m.X i)) ∧
    (∀ i : Int, 0 ≤ i → i < p / 2 →
      (run_workers a p n1 max_iters m).Y i = (run_workers a p n2 max_iters m).Y i) ∧
    (∀ i : Int, 0 ≤ i → i < p →
      (run_workers a p 2 max_iters m).Y i = seq_saxpy m.X m.Y a max_iters.toNat i) := by
  have key : ∀ n : Int, 0 < n → ∀ i : Int, 0 ≤ i → i < p →
      (run_workers a p n max_iters m).Y i
        = m.Y i + (if i < p / 2 then 1 else (n : ℚ) - 1) * ((max_iters : ℚ) * a * m.X i) := by
    intro n hn i h0 h1
    obtain ⟨k, hk⟩ : ∃ k : Nat, (n - 0).toNat = k + 1 := ⟨(n - 1).toNat, by omega⟩
    have hkq : (k : ℚ) = (n : ℚ) - 1 := by
      have h : (k : Int) = n - 1 := by omega
      rw [← Int.cast_natCast, h]
      push_cast
      ring
    have h := workers_Y_val a p max_iters k m hp hm.le i h0 h1
    rw [← hk, hkq] at h
    refine h.trans ?_
    ring
  refine ⟨key n1 hn1, ?_, ?_⟩
  · intro i h0 h1
    have hip : i < p := by omega
    rw [key n1 hn1 i h0 hip, key n2 hn2 i h0 hip, if_pos h1, if_pos h1]
  · intro i h0 h1
    have hc : ((max_iters.toNat : Nat) : ℚ) = (max_iters : ℚ) := by
      have h : ((max_iters.toNat : Nat) : Int) = max_iters := by omega
      exact_mod_cast h
    rw [key 2 (by decide) i h0 h1, seq_saxpy_eq, hc]
    split_ifs <;> push_cast <;> ring

theorem final_Y_by_thread_count_witness :
    (run_workers (1 : ℚ) 2 3 1 ⟨fun _ => 1, fun _ => 0, fun _ => 0⟩).Y 1
      = 0 + (if (1 : Int) < 2 / 2 then 1 else ((3 : Int) : ℚ) - 1) * (((1 : Int) : ℚ) * 1 * 1) ∧
    (run_workers (1 : ℚ) 2 3 1 ⟨fun _ => 1, fun _ => 0, fun _ => 0⟩).Y 0
      = (run_workers (1 : ℚ) 2 1 1 ⟨fun _ => 1, fun _ => 0, fun _ => 0⟩).Y 0 :=
  have h := final_Y_by_thread_count (1 : ℚ) 2 1 3 1 ⟨fun _ => 1, fun _ => 0, fun _ => 0⟩
    (by decide) (by decide) (by decide) (by decide)
  ⟨h.1 1 (by decide) (by decide), h.2.1 0 (by decide) (by decide)⟩

/-! ## The averaged series -/

theorem run_workers_two {α : Type} [Add α] [Mul α] (a : α) (p mi : Int) (m : Mem α) :
    run_workers a p 2 mi m = saxpy_thread a p mi 1 (saxpy_thread a p mi 0 m) := rfl

theorem two_threads_avgs (X Y : Int → ℚ) (a : ℚ) (p mi : Int) (hp : 0 < p)
    (it : Int) (h0 : 0 ≤ it) (h1 : it < mi) :
    (run_workers a p 2 mi { X := X, Y := Y, Y_avgs := fun _ => 0 }).Y_avgs it
        = ∑ j in Finset.Ico 0 (p / 2), (Y j + ((it : ℚ) + 1) * (a * X j)) ∧
    (run_workers a p 2 mi { X := X, Y := Y, Y_avgs := fun _ => 0 }).Y_avgs (it + mi)
        = ∑ j in Finset.Ico (p / 2) p, (Y j + ((it : ℚ) + 1) * (a * X j)) := by
  have hd := tdiv_two p hp.le
  have hs0 : start_index p 0 = 0 := by simp [start_index]
  have he0 : end_index p 0 = p / 2 := by simp [end_index, hd]
  have hs1 : start_index p 1 = p / 2 := by simp [start_index, hd]
  have he1 : end_index p 1 = p := by simp [end_index]
  have e0 : it + 0 * mi = it := by ring
  have e1 : it + 1 * mi = it + mi := by ring
  rw [run_workers_two]
  constructor
  · rw [thread_avgs_frame a p mi 1 _ it (by intro i hi0 _; omega)]
    have h := thread_avgs_val a p mi 0 { X := X, Y := Y, Y_avgs := fun _ => 0 } it h0 h1
    rw [e0, hs0, he0] at h
    rw [h, zero_add]
  · have h := thread_avgs_val a p mi 1
      (saxpy_thread a p mi 0 { X := X, Y := Y, Y_avgs := fun _ => 0 }) it h0 h1
    rw [e1, hs1, he1] at h
    rw [h, thread_avgs_frame a p mi 0 _ (it + mi) (by intro i _ hi1; omega), zero_add]
    apply Finset.sum_congr rfl
    intro j hj
    rw [Finset.mem_Ico] at hj
    rw [thread_X, thread_Y_frame a p mi 0 _ j (Or.inr (by rw [he0]; exact hj.1))]

theorem sum_Ico_split (f : Int → ℚ) (h p : Int) (h0 : 0 ≤ h) (h1 : h ≤ p) :
    ∑ j in Finset.Ico 0 h, f j + ∑ j in Finset.Ico h p, f j = ∑ j in Finset.Ico 0 p, f j := by
  rw [← Finset.sum_union (Finset.Ico_disjoint_Ico_consecutive 0 h p),
    Finset.Ico_union_Ico_eq_Ico h0 h1]

/-- C2, as stated, fails: with one thread, `p = 2`, `max_iters = 1`, `a = 2`, `X = [1,1]`
and `Y = [0,0]` the program leaves `Y_avgs[0] = 1`, while the sequential SAXPY gives
`(2 + 2) / 2 = 2`. -/
theorem averaging_fails_one_thread :
    (main_core (fun _ => (1 : ℚ)) (fun _ => 0) 2 2 1 1).Y_avgs 0 = 1 ∧
    (∑ i in Finset.Ico 0 2, seq_saxpy (fun _ => (1 : ℚ)) (fun _ => 0) 2
      ((0 : Int).toNat + 1) i) / (((2 : Int) : Int) : ℚ) = 2 := by
  constructor
  · simp [main_core, run_workers, saxpy_thread, reduce, reduce_body, for_range, for_count,
      start_index, end_index, saxpy_body, Function.update, Int.tdiv]
  · have e : Finset.Ico (0 : Int) 2 = {0, 1} := by decide
    rw [e]
    simp [seq_saxpy]

/-- C2, amended: for two threads, every `p > 0` and `max_iters > 0`, every `X`, `Y`, `a`
and every `it` of `[0, max_iters)`, after the workers and the reduction of `main`
(zeroed accumulator, exact arithmetic, workers run in thread-id order) `Y_avgs[it]` is
the sum over `[0, p)` of the value `Y[i]` has after `it + 1` sequential updates, divided
by `p`. -/
theorem averaging_two_threads (X Y : Int → ℚ) (a : ℚ) (p max_iters : Int)
    (hp : 0 < p) (_hm : 0 < max_iters) (it : Int) (h0 : 0 ≤ it) (h1 : it < max_iters) :
    (main_core X Y a p 2 max_iters).Y_avgs it
      = (∑ i in Finset.Ico 0 p, seq_saxpy X Y a (it.toNat + 1) i) / ((p : Int) : ℚ) := by
  have hW := two_threads_avgs X Y a p max_iters hp it h0 h1
  have hc : (((it.toNat + 1 : Nat)) : ℚ) = (it : ℚ) + 1 := by
    have h : ((it.toNat : Nat) : Int) = it := by omega
    push_cast
    rw [← Int.cast_natCast, h]
  show reduce p 2 max_iters _ it = _
  rw [reduce_val p 2 max_iters _ it h0 h1]
  congr 1
  have hk : ((2 : Int) - 1).toNat = 1 := by decide
  rw [hk]
  simp only [column_sum, Nat.cast_zero, zero_add, zero_mul, add_zero, one_mul]
  rw [hW.1, hW.2, sum_Ico_split _ (p / 2) p (by omega) (by omega)]
  apply Finset.sum_congr rfl
  intro j _
  rw [seq_saxpy_eq, hc]

theorem averaging_two_threads_witness :
    (main_core (fun _ => (1 : ℚ)) (fun _ => 0) 2 4 2 1).Y_avgs 0
      = (∑ i in Finset.Ico 0 4, seq_saxpy (fun _ => (1 : ℚ)) (fun _ => 0) 2
          ((0 : Int).toNat + 1) i) / (((4 : Int) : Int) : ℚ) :=
  averaging_two_threads (fun _ => (1 : ℚ)) (fun _ => 0) 2 4 1 (by decide) (by decide) 0
    (by decide) (by decide)

/-! ## Any number of workers -/

end Saxpy
